import Mathlib

/-!
Verification of the command-input core of broot (`src/commands.rs`).

The Rust source decomposes the raw input string with the anchored regex

  ^(?P<slash_before>/)?(?P<pattern>[^\s/:]+)?(?:/(?P<regex_flags>\w*))?(?:[\s:]+(?P<verb_invocation>.*))?$

(crate `regex`, leftmost-first a.k.a. Perl-like priority semantics: an
optional group prefers to participate, a greedy repetition prefers one
more iteration, and on failure the engine backtracks to the next
alternative in priority order).  We embed that matcher as a
priority-ordered backtracking recognizer specialized to this fixed
regex (`matchRE` below), together with the rest of `commands.rs`:
`CommandParts`, `Action`, `Command` and its event handling.

Character classes use the ASCII core of the regex classes: `\s` is
`Char.isWhitespace` (space, tab, CR, LF), `\w` is alphanumeric or `_`,
and `.` is any character other than `'\n'` (the `regex` crate default).
-/

namespace Broot

/-- `[\s:]` : the whitespace-or-colon separator class of the regex. -/
def sepChar (c : Char) : Bool := c.isWhitespace || c == ':'

/-- `[^\s/:]` : the pattern-token class of the regex. -/
def patChar (c : Char) : Bool := !c.isWhitespace && c != '/' && c != ':'

/-- `\w` : word characters (letters, digits, underscore). -/
def wordChar (c : Char) : Bool := c.isAlphanum || c == '_'

/-- `.` : any character except a newline (the `regex` crate default). -/
def dotChar (c : Char) : Bool := c != '\n'

/-- `(.*)$` at the current position: `.` cannot cross a newline and `$`
only matches at the very end, so the match succeeds exactly when no
newline remains; the capture is everything remaining.  Written as the
backtracking recognizer: `.*` greedily prefers one more character, and
stopping early leaves `$` on a nonempty remainder, which fails. -/
def matchDotStar : List Char → Option (List Char)
  | [] => some []
  | c :: rest => if dotChar c then (matchDotStar rest).map (c :: ·) else none

/-- `[\s:]*(.*)$` after at least one separator character was consumed:
the greedy `+` prefers to consume another separator character and falls
back to starting `(.*)` at the current position. -/
def matchSepInv : List Char → Option String
  | [] => some (String.mk [])
  | c :: rest =>
    if sepChar c then
      match matchSepInv rest with
      | some v => some v
      | none => (matchDotStar (c :: rest)).map String.mk
    else (matchDotStar (c :: rest)).map String.mk

/-- `(?:[\s:]+(.*))?$` : the optional trailing-invocation group.  The
group prefers to participate, which needs one separator character; if it
cannot participate (or fails), `$` must hold at the current position. -/
def matchStep4 : List Char → Option (Option String)
  | [] => some none
  | c :: rest =>
    if sepChar c then
      match matchSepInv rest with
      | some v => some (some v)
      | none => none
    else none

/-- `\w*` followed by the trailing-invocation group: the greedy star
prefers one more word character and falls back to stopping here. -/
def matchFlagsTail : List Char → Option (List Char × Option String)
  | [] => (matchStep4 []).map (fun v => ([], v))
  | c :: rest =>
    if wordChar c then
      match matchFlagsTail rest with
      | some (fs, v) => some (c :: fs, v)
      | none => (matchStep4 (c :: rest)).map (fun v => ([], v))
    else (matchStep4 (c :: rest)).map (fun v => ([], v))

/-- `(?:/(?P<regex_flags>\w*))?` followed by the rest of the regex: the
optional group prefers to participate, which needs a `/` here; on
failure it backtracks to not participating. -/
def matchStep3 : List Char → Option (Option String × Option String)
  | [] => (matchStep4 []).map (fun v => (none, v))
  | c :: rest =>
    if c = '/' then
      match matchFlagsTail rest with
      | some (fs, v) => some (some (String.mk fs), v)
      | none => (matchStep4 (c :: rest)).map (fun v => (none, v))
    else (matchStep4 (c :: rest)).map (fun v => (none, v))

/-- `[^\s/:]*` continuation after at least one pattern character was
consumed: the greedy `+` prefers one more pattern character and falls
back to continuing with the mode-suffix group. -/
def matchPatTail : List Char → Option (List Char × (Option String × Option String))
  | [] => (matchStep3 []).map (fun fv => ([], fv))
  | c :: rest =>
    if patChar c then
      match matchPatTail rest with
      | some (ps, fv) => some (c :: ps, fv)
      | none => (matchStep3 (c :: rest)).map (fun fv => ([], fv))
    else (matchStep3 (c :: rest)).map (fun fv => ([], fv))

/-- `(?P<pattern>[^\s/:]+)?` followed by the rest of the regex. -/
def matchStep2 : List Char → Option (Option String × Option String × Option String)
  | [] => (matchStep3 []).map (fun fv => (none, fv.1, fv.2))
  | c :: rest =>
    if patChar c then
      match matchPatTail rest with
      | some (ps, fv) => some (some (String.mk (c :: ps)), fv.1, fv.2)
      | none => (matchStep3 (c :: rest)).map (fun fv => (none, fv.1, fv.2))
    else (matchStep3 (c :: rest)).map (fun fv => (none, fv.1, fv.2))

/-- The four captures of the regex: `slash_before` (as presence),
`pattern`, `regex_flags` and `verb_invocation`. -/
structure ReCaptures where
  slash_before : Bool
  pattern : Option String
  regex_flags : Option String
  verb_invocation : Option String
deriving DecidableEq, Repr

/-- The whole anchored regex, `^(/)?...$`: the optional leading slash
group prefers to participate; on failure of the remainder the engine
backtracks to not consuming the slash. -/
def matchRE : List Char → Option ReCaptures
  | [] => (matchStep2 []).map (fun pfv => ⟨false, pfv.1, pfv.2.1, pfv.2.2⟩)
  | c :: rest =>
    if c = '/' then
      match matchStep2 rest with
      | some pfv => some ⟨true, pfv.1, pfv.2.1, pfv.2.2⟩
      | none => (matchStep2 (c :: rest)).map (fun pfv => ⟨false, pfv.1, pfv.2.1, pfv.2.2⟩)
    else (matchStep2 (c :: rest)).map (fun pfv => ⟨false, pfv.1, pfv.2.1, pfv.2.2⟩)

/-! ## Deterministic characterization of the regex match

`scan…` are second definitions written from the spec's grammar (§4.1):
greedy, single-pass, leftmost.  We prove below that the backtracking
matcher agrees with them, which settles the claims about the grammar. -/

/-- `some` of the run when it is nonempty, i.e. whether the optional
`+`-group captured anything. -/
def strOpt (l : List Char) : Option String := if l = [] then none else some (String.mk l)

/-- Step 4 of the grammar, greedy: a run of one or more separator
characters followed by everything remaining, which must not contain a
newline (the `.` class cannot cross one and the match is anchored). -/
def scanStep4 : List Char → Option (Option String)
  | [] => some none
  | c :: r =>
    if sepChar c then
      if ((c :: r).dropWhile sepChar).all dotChar then
        some (some (String.mk ((c :: r).dropWhile sepChar)))
      else none
    else none

/-- Step 3 of the grammar, greedy: an optional `/` followed by the
longest run of word characters, then step 4. -/
def scanStep3 : List Char → Option (Option String × Option String)
  | [] => (scanStep4 []).map (fun v => (none, v))
  | c :: r =>
    if c = '/' then
      (scanStep4 (r.dropWhile wordChar)).map
        (fun v => (some (String.mk (r.takeWhile wordChar)), v))
    else (scanStep4 (c :: r)).map (fun v => (none, v))

/-- Step 2 of the grammar, greedy: the longest (possibly empty) run of
pattern characters, then step 3. -/
def scanStep2 (l : List Char) : Option (Option String × Option String × Option String) :=
  (scanStep3 (l.dropWhile patChar)).map
    (fun fv => (strOpt (l.takeWhile patChar), fv.1, fv.2))

/-- Step 1 of the grammar: an optional leading `/`, then step 2. -/
def scanRE : List Char → Option ReCaptures
  | [] => (scanStep2 []).map (fun pfv => ⟨false, pfv.1, pfv.2.1, pfv.2.2⟩)
  | c :: rest =>
    if c = '/' then (scanStep2 rest).map (fun pfv => ⟨true, pfv.1, pfv.2.1, pfv.2.2⟩)
    else (scanStep2 (c :: rest)).map (fun pfv => ⟨false, pfv.1, pfv.2.1, pfv.2.2⟩)

/-- The text remaining after the optional leading separator (grammar
step 1 of §4.1). -/
def step1Rest (l : List Char) : List Char :=
  match l with
  | [] => []
  | c :: r => if c = '/' then r else c :: r

/-- Whether the text begins with the leading separator `/`. -/
def hasSlash (l : List Char) : Bool :=
  match l with
  | [] => false
  | c :: _ => c == '/'

/-- The text remaining after the optional pattern token and the optional
mode suffix, for input starting after step 1 (grammar steps 2-3). -/
def innerRest (m : List Char) : List Char :=
  match m.dropWhile patChar with
  | [] => []
  | c :: r => if c = '/' then r.dropWhile wordChar else c :: r

/-- The mode-suffix flags captured in steps 2-3, when the suffix is
present. -/
def innerFlags (m : List Char) : Option String :=
  match m.dropWhile patChar with
  | [] => none
  | c :: r => if c = '/' then some (String.mk (r.takeWhile wordChar)) else none

/-- The text remaining after grammar steps 1-3 of §4.1. -/
def step3Rest (l : List Char) : List Char := innerRest (step1Rest l)

/-- The mode-suffix flags of the whole text, when matched. -/
def flagsOpt (l : List Char) : Option String := innerFlags (step1Rest l)

/-! ## The data model of `commands.rs` -/

/-- Modelled from the spec: `VerbInvocation` lives in the external
module `crate::verb_invocation`, whose sources are not part of this
core; §6 specifies that `parse_invocation`'s result is treated opaquely
and carries the captured trailing-invocation substring verbatim. -/
structure VerbInvocation where
  raw : String
deriving DecidableEq, Repr

/-- `VerbInvocation::from(&str)` of the external module: wraps the
verbatim text. -/
def VerbInvocation.fromStr (s : String) : VerbInvocation := ⟨s⟩

/-- `struct CommandParts`: the parsed parts of the visible input. -/
structure CommandParts where
  pattern : Option String
  regex_flags : Option String
  verb_invocation : Option VerbInvocation
deriving DecidableEq, Repr

/-- `CommandParts::new`. -/
def CommandParts.new : CommandParts := ⟨none, none, none⟩

/-- `CommandParts::from(raw)`: run the regex; on a match, copy the
`pattern` capture, set `regex_flags` from its capture or, failing that,
to `""` when `slash_before` participated - both only under
`if let Some(pattern)` - and wrap the `verb_invocation` capture. -/
def CommandParts.fromRaw (raw : String) : CommandParts :=
  match matchRE raw.data with
  | none => CommandParts.new
  | some caps =>
    { pattern := caps.pattern
      regex_flags :=
        match caps.pattern with
        | some _ =>
          match caps.regex_flags with
          | some f => some f
          | none => if caps.slash_before then some (String.mk []) else none
        | none => none
      verb_invocation := caps.verb_invocation.map VerbInvocation.fromStr }

/-- `enum Action`: what's required, based on the last event. -/
inductive Action where
  | MoveSelection (delta : Int)
  | ScrollPage (delta : Int)
  | OpenSelection
  | AltOpenSelection
  | VerbEdit (v : VerbInvocation)
  | Verb (v : VerbInvocation)
  | FuzzyPatternEdit (s : String)
  | RegexEdit (core : String) (flags : String)
  | Back
  | Next
  | Refresh
  | Help
  | Quit
  | Click (x : Nat) (y : Nat)
  | DoubleClick (x : Nat) (y : Nat)
  | Unparsed
deriving DecidableEq, Repr

/-- `Action::from(cp, finished)`: the intent deriver. -/
def Action.fromParts (cp : CommandParts) (finished : Bool) : Action :=
  match cp.verb_invocation with
  | some verb_invocation =>
    if finished then Action.Verb verb_invocation else Action.VerbEdit verb_invocation
  | none =>
    if finished then Action.OpenSelection
    else
      match cp.pattern with
      | some p =>
        match cp.regex_flags with
        | some regex_flags => Action.RegexEdit p regex_flags
        | none => Action.FuzzyPatternEdit p
      | none => Action.FuzzyPatternEdit (String.mk [])

/-- The key presses of the `crossterm::KeyEvent` variants that
`Command::add_key` inspects; `Other` stands for every key that falls
into the final catch-all arm. -/
inductive KeyEvent where
  | Char (c : Char)
  | Alt (c : Char)
  | Ctrl (c : Char)
  | F (n : Nat)
  | Up
  | Down
  | PageUp
  | PageDown
  | Esc
  | Backspace
  | Other
deriving DecidableEq, Repr

/-- The input events of `crate::event::Event`. -/
inductive Event where
  | Click (x : Nat) (y : Nat)
  | DoubleClick (x : Nat) (y : Nat)
  | Key (key : KeyEvent)
deriving DecidableEq, Repr

/-- `struct Command`: raw text, cached parts, current action. -/
structure Command where
  raw : String
  parts : CommandParts
  action : Action
deriving DecidableEq, Repr

/-- `Command::new`. -/
def Command.new : Command :=
  { raw := String.mk [], parts := CommandParts.new, action := Action.Unparsed }

/-- `Command::from(raw)`: batch construction from a complete string;
finished iff the string contains a `':'` (Rust `raw.contains(':')`). -/
def Command.fromString (raw : String) : Command :=
  let parts := CommandParts.fromRaw raw
  let action := Action.fromParts parts (raw.data.contains ':')
  { raw := raw, parts := parts, action := action }

/-- `Command::add_key`: the per-key transition, arm for arm from the
Rust `match`; each constructor's literal tests are performed in the
source's arm order. -/
def Command.add_key (cmd : Command) (key : KeyEvent) : Command :=
  match key with
  | KeyEvent.Char c =>
    if c = '\t' then { cmd with action := Action.Next }
    else if c = '\n' then { cmd with action := Action.fromParts cmd.parts true }
    else if c = '?' ∧ (cmd.raw = String.mk [] ∨ cmd.parts.verb_invocation.isSome) then
      { cmd with action := Action.Help }
    else
      let raw := cmd.raw.push c
      let parts := CommandParts.fromRaw raw
      { raw := raw, parts := parts, action := Action.fromParts parts false }
  | KeyEvent.Alt c =>
    if c = '\r' ∨ c = '\n' then { cmd with action := Action.AltOpenSelection } else cmd
  | KeyEvent.Ctrl c =>
    if c = 'q' then { cmd with action := Action.Quit }
    else if c = 'u' then { cmd with action := Action.ScrollPage (-1) }
    else if c = 'd' then { cmd with action := Action.ScrollPage 1 }
    else cmd
  | KeyEvent.F n => if n = 5 then { cmd with action := Action.Refresh } else cmd
  | KeyEvent.Up => { cmd with action := Action.MoveSelection (-1) }
  | KeyEvent.Down => { cmd with action := Action.MoveSelection 1 }
  | KeyEvent.PageUp => { cmd with action := Action.ScrollPage (-1) }
  | KeyEvent.PageDown => { cmd with action := Action.ScrollPage 1 }
  | KeyEvent.Esc => { cmd with action := Action.Back }
  | KeyEvent.Backspace =>
    if cmd.raw = String.mk [] then { cmd with action := Action.Back }
    else
      let raw := String.mk cmd.raw.data.dropLast
      let parts := CommandParts.fromRaw raw
      { raw := raw, parts := parts, action := Action.fromParts parts false }
  | KeyEvent.Other => cmd

/-- `Command::add_event`. -/
def Command.add_event (cmd : Command) (event : Event) : Command :=
  match event with
  | Event.Click x y => { cmd with action := Action.Click x y }
  | Event.DoubleClick x y => { cmd with action := Action.DoubleClick x y }
  | Event.Key key => cmd.add_key key

/-- Fold a finite sequence of input events over a state. -/
def Command.applyEvents : Command → List Event → Command
  | cmd, [] => cmd
  | cmd, e :: es => (cmd.add_event e).applyEvents es

/-! ## Character-class facts -/

theorem isWhitespace_cases (c : Char) (h : c.isWhitespace = true) :
    c = ' ' ∨ c = '\t' ∨ c = '\r' ∨ c = '\n' := by
  simpa [Char.isWhitespace, decide_eq_true_eq, or_assoc] using h

theorem wordChar_not_sepChar (c : Char) (h : wordChar c = true) : sepChar c = false := by
  cases hw : c.isWhitespace with
  | true =>
    rcases isWhitespace_cases c hw with h1 | h1 | h1 | h1 <;> subst h1 <;>
      exact absurd h (by decide)
  | false =>
    by_cases hc : c = ':'
    · subst hc; exact absurd h (by decide)
    · simp [sepChar, hw, hc]

theorem wordChar_patChar (c : Char) (h : wordChar c = true) : patChar c = true := by
  have hs : c ≠ '/' := by intro h1; subst h1; exact absurd h (by decide)
  have hcol : c ≠ ':' := by intro h1; subst h1; exact absurd h (by decide)
  cases hw : c.isWhitespace with
  | true =>
    rcases isWhitespace_cases c hw with h1 | h1 | h1 | h1 <;> subst h1 <;>
      exact absurd h (by decide)
  | false => simp [patChar, hw, hs, hcol]

theorem patChar_not_sepChar (c : Char) (h : patChar c = true) : sepChar c = false := by
  simp only [patChar, Bool.and_eq_true, Bool.not_eq_true', bne_iff_ne, ne_eq] at h
  simp [sepChar, h.1.1, h.2]

theorem patChar_ne_slash (c : Char) (h : patChar c = true) : c ≠ '/' := by
  simp only [patChar, Bool.and_eq_true, bne_iff_ne, ne_eq] at h
  exact h.1.2

theorem sepChar_not_patChar (c : Char) (h : sepChar c = true) : patChar c = false := by
  cases hp : patChar c with
  | false => rfl
  | true => rw [patChar_not_sepChar c hp] at h; exact absurd h (by decide)

theorem sepChar_ne_slash (c : Char) (h : sepChar c = true) : c ≠ '/' := by
  intro h1; subst h1; exact absurd h (by decide)

/-! ## List helper lemmas -/

theorem mem_of_mem_dropWhile {p : Char → Bool} {x : Char} :
    ∀ {l : List Char}, x ∈ l.dropWhile p → x ∈ l := by
  intro l
  induction l with
  | nil => intro h; simp at h
  | cons c r ih =>
    intro h
    rw [List.dropWhile_cons] at h
    by_cases hc : p c = true
    · rw [if_pos hc] at h; exact List.mem_cons_of_mem _ (ih h)
    · rw [if_neg hc] at h; exact h

theorem dropWhile_head_false {p : Char → Bool} :
    ∀ {l : List Char} {c : Char} {r : List Char}, l.dropWhile p = c :: r → p c = false := by
  intro l
  induction l with
  | nil => intro c r h; simp at h
  | cons a t ih =>
    intro c r h
    rw [List.dropWhile_cons] at h
    by_cases ha : p a = true
    · rw [if_pos ha] at h; exact ih h
    · rw [if_neg ha] at h
      cases h
      simpa using ha

theorem takeWhile_append_all {p : Char → Bool} :
    ∀ (w z : List Char), (∀ x ∈ w, p x = true) →
      (∀ c r, z = c :: r → p c = false) →
      (w ++ z).takeWhile p = w ∧ (w ++ z).dropWhile p = z := by
  intro w
  induction w with
  | nil =>
    intro z _ hz
    cases z with
    | nil => simp
    | cons c r =>
      have hc := hz c r rfl
      constructor
      · simp [List.takeWhile_cons, hc]
      · simp [List.dropWhile_cons, hc]
  | cons a w ih =>
    intro z hw hz
    have ha : p a = true := hw a (List.mem_cons_self a w)
    obtain ⟨h1, h2⟩ := ih z (fun x hx => hw x (List.mem_cons_of_mem _ hx)) hz
    constructor
    · simp [List.takeWhile_cons, ha, h1]
    · simp [List.dropWhile_cons, ha, h2]

/-! ## The backtracking matcher agrees with the greedy scan -/

theorem matchDotStar_eq (l : List Char) :
    matchDotStar l = if l.all dotChar then some l else none := by
  induction l with
  | nil => simp [matchDotStar]
  | cons c r ih =>
    by_cases hc : dotChar c = true
    · rw [matchDotStar, if_pos hc, ih]
      cases hr : r.all dotChar with
      | true => simp [List.all_cons, hc, hr]
      | false => simp [List.all_cons, hc, hr]
    · have hc' : dotChar c = false := by simpa using hc
      rw [matchDotStar, if_neg hc]
      simp [List.all_cons, hc']

theorem all_dotChar_of_dropWhile {q : Char → Bool} {l : List Char}
    (h : l.all dotChar = true) : (l.dropWhile q).all dotChar = true := by
  rw [List.all_eq_true] at h ⊢
  intro x hx
  exact h x (mem_of_mem_dropWhile hx)

theorem matchSepInv_eq (l : List Char) :
    matchSepInv l =
      (if (l.dropWhile sepChar).all dotChar
       then some (String.mk (l.dropWhile sepChar)) else none) := by
  induction l with
  | nil => simp [matchSepInv]
  | cons c r ih =>
    by_cases hc : sepChar c = true
    · have hd : (c :: r).dropWhile sepChar = r.dropWhile sepChar :=
        List.dropWhile_cons_of_pos hc
      rw [List.dropWhile_cons] at hd
      by_cases hr : (r.dropWhile sepChar).all dotChar = true
      · rw [matchSepInv, if_pos hc, ih, if_pos hr]
        rw [List.dropWhile_cons, if_pos hc, if_pos hr]
      · have hall : (c :: r).all dotChar = false := by
          cases hall : (c :: r).all dotChar with
          | false => rfl
          | true =>
            have hr' : r.all dotChar = true := by
              rw [List.all_cons, Bool.and_eq_true] at hall; exact hall.2
            exact absurd (all_dotChar_of_dropWhile hr') hr
        rw [matchSepInv, if_pos hc, ih, if_neg hr, matchDotStar_eq, hall]
        rw [List.dropWhile_cons, if_pos hc, if_neg hr]
        rfl
    · have hc' : sepChar c = false := by simpa using hc
      rw [matchSepInv, if_neg hc, matchDotStar_eq]
      rw [List.dropWhile_cons, if_neg hc]
      by_cases hall : (c :: r).all dotChar = true
      · rw [if_pos hall, if_pos hall]; rfl
      · rw [if_neg hall, if_neg hall]; rfl

theorem matchStep4_eq (l : List Char) : matchStep4 l = scanStep4 l := by
  cases l with
  | nil => rfl
  | cons c r =>
    by_cases hc : sepChar c = true
    · rw [matchStep4, if_pos hc, scanStep4, if_pos hc, matchSepInv_eq]
      rw [List.dropWhile_cons, if_pos hc]
      by_cases hr : (r.dropWhile sepChar).all dotChar = true
      · rw [if_pos hr, if_pos hr]
      · rw [if_neg hr, if_neg hr]
    · rw [matchStep4, if_neg hc, scanStep4, if_neg hc]

theorem matchFlagsTail_eq (l : List Char) :
    matchFlagsTail l =
      (matchStep4 (l.dropWhile wordChar)).map (fun v => (l.takeWhile wordChar, v)) := by
  induction l with
  | nil => simp [matchFlagsTail]
  | cons c r ih =>
    by_cases hc : wordChar c = true
    · have ht : (c :: r).takeWhile wordChar = c :: r.takeWhile wordChar :=
        List.takeWhile_cons_of_pos hc
      have hd : (c :: r).dropWhile wordChar = r.dropWhile wordChar :=
        List.dropWhile_cons_of_pos hc
      rw [matchFlagsTail, if_pos hc, ih, ht, hd]
      cases h4 : matchStep4 (r.dropWhile wordChar) with
      | some v => rfl
      | none =>
        have h0 : matchStep4 (c :: r) = none := by
          rw [matchStep4, if_neg]
          simp [wordChar_not_sepChar c hc]
        simp [h0]
    · have hc' : wordChar c = false := by simpa using hc
      have ht : (c :: r).takeWhile wordChar = [] := List.takeWhile_cons_of_neg (by simp [hc'])
      have hd : (c :: r).dropWhile wordChar = c :: r := List.dropWhile_cons_of_neg (by simp [hc'])
      rw [matchFlagsTail, if_neg hc, ht, hd]

theorem matchStep3_eq (l : List Char) : matchStep3 l = scanStep3 l := by
  cases l with
  | nil => rfl
  | cons c r =>
    by_cases hc : c = '/'
    · subst hc
      rw [matchStep3, if_pos rfl, scanStep3, if_pos rfl, matchFlagsTail_eq, matchStep4_eq]
      cases h4 : scanStep4 (r.dropWhile wordChar) with
      | some v => rfl
      | none =>
        have h0 : matchStep4 ('/' :: r) = none := by
          rw [matchStep4, if_neg]
          simp [sepChar]
        simp [h0]
    · rw [matchStep3, if_neg hc, scanStep3, if_neg hc, matchStep4_eq]

theorem matchPatTail_eq (l : List Char) :
    matchPatTail l =
      (matchStep3 (l.dropWhile patChar)).map (fun fv => (l.takeWhile patChar, fv)) := by
  induction l with
  | nil => simp [matchPatTail]
  | cons c r ih =>
    by_cases hc : patChar c = true
    · have ht : (c :: r).takeWhile patChar = c :: r.takeWhile patChar :=
        List.takeWhile_cons_of_pos hc
      have hd : (c :: r).dropWhile patChar = r.dropWhile patChar :=
        List.dropWhile_cons_of_pos hc
      rw [matchPatTail, if_pos hc, ih, ht, hd]
      cases h3 : matchStep3 (r.dropWhile patChar) with
      | some fv => rfl
      | none =>
        have h0 : matchStep3 (c :: r) = none := by
          rw [matchStep3, if_neg (patChar_ne_slash c hc)]
          have h4 : matchStep4 (c :: r) = none := by
            rw [matchStep4, if_neg]
            simp [patChar_not_sepChar c hc]
          simp [h4]
        simp [h0]
    · have hc' : patChar c = false := by simpa using hc
      have ht : (c :: r).takeWhile patChar = [] := List.takeWhile_cons_of_neg (by simp [hc'])
      have hd : (c :: r).dropWhile patChar = c :: r := List.dropWhile_cons_of_neg (by simp [hc'])
      rw [matchPatTail, if_neg hc, ht, hd]

theorem matchStep2_eq (l : List Char) : matchStep2 l = scanStep2 l := by
  cases l with
  | nil => rfl
  | cons c r =>
    by_cases hc : patChar c = true
    · have ht : (c :: r).takeWhile patChar = c :: r.takeWhile patChar :=
        List.takeWhile_cons_of_pos hc
      have hd : (c :: r).dropWhile patChar = r.dropWhile patChar :=
        List.dropWhile_cons_of_pos hc
      rw [matchStep2, if_pos hc, matchPatTail_eq, scanStep2, ht, hd, matchStep3_eq]
      cases h3 : scanStep3 (r.dropWhile patChar) with
      | some fv => simp [strOpt]
      | none =>
        have h0 : matchStep3 (c :: r) = none := by
          rw [matchStep3, if_neg (patChar_ne_slash c hc)]
          have h4 : matchStep4 (c :: r) = none := by
            rw [matchStep4, if_neg]
            simp [patChar_not_sepChar c hc]
          simp [h4]
        simp [h0]
    · have hc' : patChar c = false := by simpa using hc
      have ht : (c :: r).takeWhile patChar = [] := List.takeWhile_cons_of_neg (by simp [hc'])
      have hd : (c :: r).dropWhile patChar = c :: r := List.dropWhile_cons_of_neg (by simp [hc'])
      rw [matchStep2, if_neg hc, scanStep2, ht, hd, matchStep3_eq]
      simp [strOpt]

/-- When the regex fails on the text after a leading `/`, backtracking
into "the leading slash group does not participate" cannot rescue the
match: the slash can then only be consumed by the mode-suffix group, and
whenever that succeeds the pattern-first parse succeeds as well. -/
theorem matchStep2_slash_of_none (rest : List Char) (h : matchStep2 rest = none) :
    matchStep2 ('/' :: rest) = none := by
  have hp : ¬ (patChar '/' = true) := by decide
  rw [matchStep2, if_neg hp, matchStep3_eq, scanStep3, if_pos rfl]
  cases h4 : scanStep4 (rest.dropWhile wordChar) with
  | none => rfl
  | some v =>
    exfalso
    have hrw : rest.dropWhile patChar = rest.dropWhile wordChar := by
      have hsplit := List.takeWhile_append_dropWhile wordChar rest
      have hw : ∀ x ∈ rest.takeWhile wordChar, patChar x = true := by
        intro x hx
        exact wordChar_patChar x (List.mem_takeWhile_imp hx)
      have hz : ∀ c r, rest.dropWhile wordChar = c :: r → patChar c = false := by
        intro c r hcr
        rw [hcr, scanStep4] at h4
        by_cases hs : sepChar c = true
        · exact sepChar_not_patChar c hs
        · rw [if_neg hs] at h4; exact absurd h4 (by simp)
      have hpair := takeWhile_append_all (rest.takeWhile wordChar) (rest.dropWhile wordChar) hw hz
      calc rest.dropWhile patChar
          = (rest.takeWhile wordChar ++ rest.dropWhile wordChar).dropWhile patChar := by
            rw [hsplit]
        _ = rest.dropWhile wordChar := hpair.2
    rw [matchStep2_eq] at h
    simp only [scanStep2, hrw] at h
    cases hz' : rest.dropWhile wordChar with
    | nil => rw [hz'] at h; simp [scanStep3, scanStep4] at h
    | cons c r =>
      rw [hz'] at h h4
      have hs : sepChar c = true := by
        rw [scanStep4] at h4
        by_cases hs : sepChar c = true
        · exact hs
        · rw [if_neg hs] at h4; exact absurd h4 (by simp)
      rw [scanStep3, if_neg (sepChar_ne_slash c hs), h4] at h
      simp at h

theorem matchRE_eq (l : List Char) : matchRE l = scanRE l := by
  cases l with
  | nil => rfl
  | cons c rest =>
    by_cases hc : c = '/'
    · subst hc
      rw [matchRE, if_pos rfl, scanRE, if_pos rfl, ← matchStep2_eq]
      cases h2 : matchStep2 rest with
      | some pfv => rfl
      | none => rw [matchStep2_slash_of_none rest h2]; rfl
    · rw [matchRE, if_neg hc, scanRE, if_neg hc, matchStep2_eq]

theorem scanStep2_eq_steps (m : List Char) :
    scanStep2 m = (scanStep4 (innerRest m)).map
      (fun v => (strOpt (m.takeWhile patChar), innerFlags m, v)) := by
  simp only [scanStep2]
  cases hd : m.dropWhile patChar with
  | nil =>
    simp only [innerRest, innerFlags, hd]
    rfl
  | cons c r =>
    by_cases hc : c = '/'
    · subst hc
      simp only [innerRest, innerFlags, hd]
      rw [scanStep3, if_pos rfl]
      cases h4 : scanStep4 (r.dropWhile wordChar) <;> simp [h4]
    · simp only [innerRest, innerFlags, hd]
      rw [scanStep3, if_neg hc]
      cases h4 : scanStep4 (c :: r) <;> simp [h4, hc]

theorem scanRE_eq_steps (l : List Char) :
    scanRE l = (scanStep4 (step3Rest l)).map
      (fun v => ⟨hasSlash l, strOpt ((step1Rest l).takeWhile patChar), flagsOpt l, v⟩) := by
  cases l with
  | nil => rfl
  | cons c rest =>
    by_cases hc : c = '/'
    · subst hc
      rw [scanRE, if_pos rfl, scanStep2_eq_steps]
      simp only [step3Rest, flagsOpt, step1Rest, hasSlash, if_pos rfl]
      cases h4 : scanStep4 (innerRest rest) <;> simp [h4]
    · rw [scanRE, if_neg hc, scanStep2_eq_steps]
      simp only [step3Rest, flagsOpt, step1Rest, hasSlash, if_neg hc]
      cases h4 : scanStep4 (innerRest (c :: rest)) <;> simp [h4, hc]

/-- The regex matcher, expressed through the grammar's greedy steps. -/
theorem matchRE_eq_steps (l : List Char) :
    matchRE l = (scanStep4 (step3Rest l)).map
      (fun v => ⟨hasSlash l, strOpt ((step1Rest l).takeWhile patChar), flagsOpt l, v⟩) := by
  rw [matchRE_eq, scanRE_eq_steps]

/-! ## Claims -/

/-- Claim C1: the intent deriver applies its rules in priority order,
first match wins: a present trailing invocation yields
`Verb`/`VerbEdit` (commit when finished, edit otherwise) regardless of
any pattern; else a finished input yields `OpenSelection`; else a
present pattern yields `RegexEdit(pattern, flags)` when flags were
requested and `FuzzyPatternEdit(pattern)` otherwise; else
`FuzzyPatternEdit("")`. -/
theorem C1 (cp : CommandParts) (finished : Bool) :
    (∀ v, cp.verb_invocation = some v →
      Action.fromParts cp finished
        = (if finished then Action.Verb v else Action.VerbEdit v)) ∧
    (cp.verb_invocation = none → finished = true →
      Action.fromParts cp finished = Action.OpenSelection) ∧
    (∀ p f, cp.verb_invocation = none → finished = false → cp.pattern = some p →
      cp.regex_flags = some f →
      Action.fromParts cp finished = Action.RegexEdit p f) ∧
    (∀ p, cp.verb_invocation = none → finished = false → cp.pattern = some p →
      cp.regex_flags = none →
      Action.fromParts cp finished = Action.FuzzyPatternEdit p) ∧
    (cp.verb_invocation = none → finished = false → cp.pattern = none →
      Action.fromParts cp finished = Action.FuzzyPatternEdit "") := by
  refine ⟨?_, ?_, ?_, ?_, ?_⟩
  · intro v hv
    simp [Action.fromParts, hv]
  · intro hv hf
    subst hf
    simp [Action.fromParts, hv]
  · intro p f hv hf hp hfl
    subst hf
    simp [Action.fromParts, hv, hp, hfl]
  · intro p hv hf hp hfl
    subst hf
    simp [Action.fromParts, hv, hp, hfl]
  · intro hv hf hp
    subst hf
    simp only [Action.fromParts, hv, hp]
    rfl

/-- Witness for C1: a concrete decomposition with a trailing invocation
and `finished = true` commits the invocation. -/
theorem C1_witness :
    Action.fromParts ⟨some "p", some "f", some (VerbInvocation.fromStr "v")⟩ true
      = Action.Verb (VerbInvocation.fromStr "v") := by
  have h := (C1 ⟨some "p", some "f", some (VerbInvocation.fromStr "v")⟩ true).1
    (VerbInvocation.fromStr "v") rfl
  simpa using h

/-- Claim C4: decomposition is a total function: for every input string,
including the empty string, it returns a `CommandParts` value (in this
embedding it is a structurally recursive function, so it terminates and
cannot fail; the empty string yields the all-absent decomposition). -/
theorem C4 :
    (∀ s : String, ∃ cp : CommandParts, CommandParts.fromRaw s = cp) ∧
    CommandParts.fromRaw "" = CommandParts.new :=
  ⟨fun _ => ⟨_, rfl⟩, by decide⟩

/-- Claim C5: `flags_requested` is never `Some` while `pattern` is
`None`. -/
theorem C5 (s : String) (h : (CommandParts.fromRaw s).regex_flags.isSome = true) :
    (CommandParts.fromRaw s).pattern.isSome = true := by
  rw [CommandParts.fromRaw] at h ⊢
  cases hm : matchRE s.data with
  | none => rw [hm] at h; simp [CommandParts.new] at h
  | some caps =>
    rw [hm] at h
    cases hp : caps.pattern with
    | none => simp [hp] at h
    | some p => simp [hp]

/-- Witness for C5: a concrete input whose decomposition has flags. -/
theorem C5_witness : (CommandParts.fromRaw "a/i").pattern.isSome = true :=
  C5 "a/i" (by decide)

/-- The intent deriver only produces the five intent shapes. -/
theorem fromParts_shape (cp : CommandParts) (finished : Bool) :
    (∃ v, Action.fromParts cp finished = Action.Verb v) ∨
    (∃ v, Action.fromParts cp finished = Action.VerbEdit v) ∨
    Action.fromParts cp finished = Action.OpenSelection ∨
    (∃ p f, Action.fromParts cp finished = Action.RegexEdit p f) ∨
    (∃ p, Action.fromParts cp finished = Action.FuzzyPatternEdit p) := by
  unfold Action.fromParts
  cases hv : cp.verb_invocation with
  | some v =>
    cases finished
    · exact Or.inr (Or.inl ⟨v, rfl⟩)
    · exact Or.inl ⟨v, rfl⟩
  | none =>
    cases finished
    · cases hp : cp.pattern with
      | none => exact Or.inr (Or.inr (Or.inr (Or.inr ⟨String.mk [], rfl⟩)))
      | some p =>
        cases hf : cp.regex_flags with
        | none => exact Or.inr (Or.inr (Or.inr (Or.inr ⟨p, rfl⟩)))
        | some f => exact Or.inr (Or.inr (Or.inr (Or.inl ⟨p, f, rfl⟩)))
    · exact Or.inr (Or.inr (Or.inl rfl))

/-- The intent deriver never produces `Unparsed`. -/
theorem fromParts_ne_unparsed (cp : CommandParts) (finished : Bool) :
    Action.fromParts cp finished ≠ Action.Unparsed := by
  rcases fromParts_shape cp finished with ⟨v, h⟩ | ⟨v, h⟩ | h | ⟨p, f, h⟩ | ⟨p, h⟩ <;>
    rw [h] <;> simp

/-- Claim C10: the deriver returns only the five invocation/selection/
pattern intents, never `Unparsed`; `Unparsed` is the initial action of a
fresh empty state, and an event whose processing leaves the action
`Unparsed` left the whole state untouched (only unrecognized events do
that). -/
theorem C10 :
    (∀ (cp : CommandParts) (finished : Bool),
      ((∃ v, Action.fromParts cp finished = Action.Verb v) ∨
       (∃ v, Action.fromParts cp finished = Action.VerbEdit v) ∨
       Action.fromParts cp finished = Action.OpenSelection ∨
       (∃ p f, Action.fromParts cp finished = Action.RegexEdit p f) ∨
       (∃ p, Action.fromParts cp finished = Action.FuzzyPatternEdit p)) ∧
      Action.fromParts cp finished ≠ Action.Unparsed) ∧
    Command.new.action = Action.Unparsed ∧
    (∀ (cmd : Command) (e : Event),
      (cmd.add_event e).action = Action.Unparsed → cmd.add_event e = cmd) := by
  refine ⟨fun cp finished => ⟨fromParts_shape cp finished, fromParts_ne_unparsed cp finished⟩,
    rfl, ?_⟩
  intro cmd e h
  cases e with
  | Click x y => simp [Command.add_event] at h
  | DoubleClick x y => simp [Command.add_event] at h
  | Key k =>
    simp only [Command.add_event] at h ⊢
    cases k with
    | Char c =>
      by_cases h1 : c = '\t'
      · simp [Command.add_key, h1] at h
      · by_cases h2 : c = '\n'
        · simp only [Command.add_key, if_neg h1, if_pos h2] at h
          exact absurd h (fromParts_ne_unparsed cmd.parts true)
        · by_cases h3 : c = '?' ∧ (cmd.raw = String.mk [] ∨ cmd.parts.verb_invocation.isSome)
          · simp [Command.add_key, if_neg h1, if_neg h2, if_pos h3] at h
          · simp only [Command.add_key, if_neg h1, if_neg h2, if_neg h3] at h
            exact absurd h (fromParts_ne_unparsed _ false)
    | Alt c =>
      by_cases h1 : c = '\r' ∨ c = '\n'
      · simp [Command.add_key, if_pos h1] at h
      · simp [Command.add_key, if_neg h1]
    | Ctrl c =>
      by_cases h1 : c = 'q'
      · simp [Command.add_key, if_pos h1] at h
      · by_cases h2 : c = 'u'
        · simp [Command.add_key, if_neg h1, if_pos h2] at h
        · by_cases h3 : c = 'd'
          · simp [Command.add_key, if_neg h1, if_neg h2, if_pos h3] at h
          · simp [Command.add_key, if_neg h1, if_neg h2, if_neg h3]
    | F n =>
      by_cases h1 : n = 5
      · simp [Command.add_key, if_pos h1] at h
      · simp [Command.add_key, if_neg h1]
    | Up => simp [Command.add_key] at h
    | Down => simp [Command.add_key] at h
    | PageUp => simp [Command.add_key] at h
    | PageDown => simp [Command.add_key] at h
    | Esc => simp [Command.add_key] at h
    | Backspace =>
      by_cases h1 : cmd.raw = String.mk []
      · simp [Command.add_key, if_pos h1] at h
      · simp only [Command.add_key, if_neg h1] at h
        exact absurd h (fromParts_ne_unparsed _ false)
    | Other => rfl

/-- Witness for C10: processing an unrecognized key on the fresh state
leaves it untouched (its action stays `Unparsed`). -/
theorem C10_witness : Command.new.add_event (Event.Key KeyEvent.Other) = Command.new :=
  C10.2.2 Command.new (Event.Key KeyEvent.Other) (by decide)

/-- Processing one event preserves "the cached parts are the
decomposition of the raw text": pointer events, fixed control keys, the
help special case and unrecognized keys touch neither field, while
character and backspace events recompute the parts from the mutated
text. -/
theorem add_event_preserves_parts (cmd : Command) (e : Event)
    (h : cmd.parts = CommandParts.fromRaw cmd.raw) :
    (cmd.add_event e).parts = CommandParts.fromRaw (cmd.add_event e).raw := by
  cases e with
  | Click x y => simpa [Command.add_event] using h
  | DoubleClick x y => simpa [Command.add_event] using h
  | Key k =>
    simp only [Command.add_event]
    cases k with
    | Char c =>
      by_cases h1 : c = '\t'
      · simpa [Command.add_key, h1] using h
      · by_cases h2 : c = '\n'
        · simpa [Command.add_key, if_neg h1, if_pos h2] using h
        · by_cases h3 : c = '?' ∧ (cmd.raw = String.mk [] ∨ cmd.parts.verb_invocation.isSome)
          · simpa [Command.add_key, if_neg h1, if_neg h2, if_pos h3] using h
          · simp [Command.add_key, if_neg h1, if_neg h2, if_neg h3]
    | Alt c =>
      by_cases h1 : c = '\r' ∨ c = '\n'
      · simpa [Command.add_key, if_pos h1] using h
      · simpa [Command.add_key, if_neg h1] using h
    | Ctrl c =>
      by_cases h1 : c = 'q'
      · simpa [Command.add_key, if_pos h1] using h
      · by_cases h2 : c = 'u'
        · simpa [Command.add_key, if_neg h1, if_pos h2] using h
        · by_cases h3 : c = 'd'
          · simpa [Command.add_key, if_neg h1, if_neg h2, if_pos h3] using h
          · simpa [Command.add_key, if_neg h1, if_neg h2, if_neg h3] using h
    | F n =>
      by_cases h1 : n = 5
      · simpa [Command.add_key, if_pos h1] using h
      · simpa [Command.add_key, if_neg h1] using h
    | Up => simpa [Command.add_key] using h
    | Down => simpa [Command.add_key] using h
    | PageUp => simpa [Command.add_key] using h
    | PageDown => simpa [Command.add_key] using h
    | Esc => simpa [Command.add_key] using h
    | Backspace =>
      by_cases h1 : cmd.raw = String.mk []
      · simpa [Command.add_key, if_pos h1] using h
      · simp [Command.add_key, if_neg h1]
    | Other => simpa [Command.add_key] using h

/-- Claim C6: starting from the empty state, after any finite sequence
of input events the cached decomposition equals the result of running
the decomposer on the current raw text. -/
theorem C6 (es : List Event) :
    (Command.new.applyEvents es).parts
      = CommandParts.fromRaw (Command.new.applyEvents es).raw := by
  have main : ∀ (es : List Event) (cmd : Command),
      cmd.parts = CommandParts.fromRaw cmd.raw →
      (cmd.applyEvents es).parts = CommandParts.fromRaw (cmd.applyEvents es).raw := by
    intro es
    induction es with
    | nil => intro cmd h; simpa [Command.applyEvents] using h
    | cons e es ih =>
      intro cmd h
      exact ih _ (add_event_preserves_parts cmd e h)
  exact main es Command.new (by decide)

/-- Claim C7: on the empty state, pressing `a` yields
`FuzzyPatternEdit "a"`, then `/` yields `RegexEdit "a" ""`, then
backspace yields `FuzzyPatternEdit "a"` again with the raw text back to
what it was; moreover, after any appending character event and any
text-shortening backspace event the action is the pure derivation from
the current raw text. -/
theorem C7 :
    ((Command.new.add_key (KeyEvent.Char 'a')).action = Action.FuzzyPatternEdit "a" ∧
     ((Command.new.add_key (KeyEvent.Char 'a')).add_key (KeyEvent.Char '/')).action
       = Action.RegexEdit "a" "" ∧
     (((Command.new.add_key (KeyEvent.Char 'a')).add_key (KeyEvent.Char '/')).add_key
         KeyEvent.Backspace).action = Action.FuzzyPatternEdit "a" ∧
     (((Command.new.add_key (KeyEvent.Char 'a')).add_key (KeyEvent.Char '/')).add_key
         KeyEvent.Backspace).raw = (Command.new.add_key (KeyEvent.Char 'a')).raw) ∧
    (∀ (cmd : Command) (c : Char), ¬(c = '\t') → ¬(c = '\n') →
      ¬(c = '?' ∧ (cmd.raw = String.mk [] ∨ cmd.parts.verb_invocation.isSome = true)) →
      (cmd.add_key (KeyEvent.Char c)).action
        = Action.fromParts (CommandParts.fromRaw (cmd.add_key (KeyEvent.Char c)).raw) false) ∧
    (∀ cmd : Command, ¬(cmd.raw = String.mk []) →
      (cmd.add_key KeyEvent.Backspace).action
        = Action.fromParts (CommandParts.fromRaw (cmd.add_key KeyEvent.Backspace).raw) false) := by
  refine ⟨by decide, ?_, ?_⟩
  · intro cmd c h1 h2 h3
    simp only [Command.add_key]
    rw [if_neg h1, if_neg h2, if_neg h3]
  · intro cmd h1
    simp only [Command.add_key]
    rw [if_neg h1]

/-- Witness for C7: the backspace purity at a concrete nonempty state. -/
theorem C7_witness :
    ((Command.fromString "ab").add_key KeyEvent.Backspace).action
      = Action.fromParts
          (CommandParts.fromRaw ((Command.fromString "ab").add_key KeyEvent.Backspace).raw)
          false :=
  C7.2.2 (Command.fromString "ab") (by decide)

/-- Claim C8: the `?` key sets the action to `Help` without touching the
raw text when the text is empty or a trailing invocation is present;
in every other situation it is appended as an ordinary character, and
in particular on raw text `ab` it yields `FuzzyPatternEdit "ab?"`. -/
theorem C8 :
    (∀ cmd : Command,
      (cmd.raw = String.mk [] ∨ cmd.parts.verb_invocation.isSome = true) →
      cmd.add_key (KeyEvent.Char '?') = { cmd with action := Action.Help }) ∧
    (∀ cmd : Command,
      ¬(cmd.raw = String.mk [] ∨ cmd.parts.verb_invocation.isSome = true) →
      (cmd.add_key (KeyEvent.Char '?')).raw = cmd.raw.push '?' ∧
      (cmd.add_key (KeyEvent.Char '?')).action
        = Action.fromParts (CommandParts.fromRaw (cmd.raw.push '?')) false) ∧
    (((Command.new.add_key (KeyEvent.Char 'a')).add_key (KeyEvent.Char 'b')).add_key
        (KeyEvent.Char '?')).action = Action.FuzzyPatternEdit "ab?" := by
  refine ⟨?_, ?_, by decide⟩
  · intro cmd h
    simp only [Command.add_key]
    rw [if_neg (by decide : ¬('?' = '\t')), if_neg (by decide : ¬('?' = '\n')),
      if_pos ⟨by trivial, h⟩]
  · intro cmd h
    simp only [Command.add_key]
    rw [if_neg (by decide : ¬('?' = '\t')), if_neg (by decide : ¬('?' = '\n')),
      if_neg (fun hc => h hc.2)]
    exact ⟨rfl, rfl⟩

/-- Witness for C8: `?` as the very first key press opens help and
leaves the raw text empty. -/
theorem C8_witness :
    Command.new.add_key (KeyEvent.Char '?') = { Command.new with action := Action.Help } :=
  C8.1 Command.new (Or.inl rfl)

/-- Counterexample for C2 as stated: `"a b"` contains a
whitespace-or-colon separator character (the space), yet batch
construction does not derive the action with `finished = true` - the
code only tests for a colon, so it derives `VerbEdit`, not `Verb`. -/
theorem C2_counterexample :
    (("a b" : String).data.any sepChar = true) ∧
    (Command.fromString "a b").action
      ≠ Action.fromParts (CommandParts.fromRaw "a b") true := by
  decide

/-- Claim C2 amended: batch construction derives the Intent with
`finished` set to true exactly when the string contains a colon `':'`
anywhere in it (whitespace separators do not count). -/
theorem C2_amended (raw : String) :
    (':' ∈ raw.data →
      (Command.fromString raw).action
        = Action.fromParts (CommandParts.fromRaw raw) true) ∧
    (':' ∉ raw.data →
      (Command.fromString raw).action
        = Action.fromParts (CommandParts.fromRaw raw) false) := by
  constructor
  · intro h
    simp [Command.fromString, h]
  · intro h
    simp [Command.fromString, h]

/-- Witness for C2 amended: a string with a colon commits. -/
theorem C2_amended_witness :
    (Command.fromString "a:b").action
      = Action.fromParts (CommandParts.fromRaw "a:b") true :=
  (C2_amended "a:b").1 (by decide)

/-- Counterexample for C3 as stated: in `"a b\nc"` the text remaining
after grammar steps 1-3 starts with a separator run, so the claim
requires `trailing_invocation_text` to be present (equal to `"b\nc"`),
but the decomposition leaves it absent: `.` in the regex cannot match
the newline, the whole regex fails, and every field stays `None`. -/
theorem C3_counterexample :
    step3Rest (("a b\nc" : String).data) = ' ' :: ("b\nc" : String).data ∧
    sepChar ' ' = true ∧
    (CommandParts.fromRaw "a b\nc").verb_invocation = none := by
  decide

/-- Claim C3 amended: when after grammar steps 1-3 a run of one or more
whitespace-or-colon characters remains, the decomposer consumes the
(maximal) run and captures everything remaining as the trailing
invocation - provided that remainder contains no newline; if it does
contain a newline the regex fails to match and every decomposition
field is absent. -/
theorem C3_amended (s : String) (c : Char) (r : List Char)
    (h : step3Rest s.data = c :: r) (hc : sepChar c = true) :
    (((c :: r).dropWhile sepChar).all dotChar = true →
      (CommandParts.fromRaw s).verb_invocation
        = some (VerbInvocation.fromStr (String.mk ((c :: r).dropWhile sepChar)))) ∧
    (((c :: r).dropWhile sepChar).all dotChar = false →
      CommandParts.fromRaw s = CommandParts.new) := by
  have hre := matchRE_eq_steps s.data
  rw [h, scanStep4, if_pos hc] at hre
  constructor
  · intro hall
    rw [if_pos hall] at hre
    simp only [Option.map_some'] at hre
    rw [CommandParts.fromRaw, hre]
    simp
  · intro hall
    rw [if_neg (by simp [hall])] at hre
    simp only [Option.map_none'] at hre
    rw [CommandParts.fromRaw, hre]

/-- Witness for C3 amended: `"a: b"` has the separator run `": "` after
its pattern token and a newline-free remainder `"b"`. -/
theorem C3_amended_witness :
    (CommandParts.fromRaw "a: b").verb_invocation = some (VerbInvocation.fromStr "b") := by
  have h := (C3_amended "a: b" ':' [' ', 'b'] (by decide) (by decide)).1 (by decide)
  exact h

/-- Counterexample for C9 as stated: the text `"/"` starts with the
leading separator, yet `flags_requested` is absent, not `Some ""` - the
code only sets it when a pattern token is present. -/
theorem C9_counterexample :
    (("/" : String).data.head? = some '/') ∧
    (CommandParts.fromRaw "/").regex_flags = none := by
  decide

/-- Claim C9 amended: for text starting with the leading separator `/`,
provided the decomposition's pattern token is present, `flags_requested`
is `Some` of the captured mode-suffix flags when a mode suffix was
matched (`flagsOpt`, grammar step 3), and otherwise `Some ""` (forced by
the leading separator); when the pattern token is absent,
`flags_requested` stays absent as well. -/
theorem C9_amended (s : String) (h : s.data.head? = some '/') :
    (∀ p f, (CommandParts.fromRaw s).pattern = some p → flagsOpt s.data = some f →
      (CommandParts.fromRaw s).regex_flags = some f) ∧
    (∀ p, (CommandParts.fromRaw s).pattern = some p → flagsOpt s.data = none →
      (CommandParts.fromRaw s).regex_flags = some "") ∧
    ((CommandParts.fromRaw s).pattern = none →
      (CommandParts.fromRaw s).regex_flags = none) := by
  have hre := matchRE_eq_steps s.data
  have hslash : hasSlash s.data = true := by
    cases hd : s.data with
    | nil => rw [hd] at h; simp at h
    | cons c rest =>
      rw [hd] at h
      simp only [List.head?_cons, Option.some.injEq] at h
      simp [hasSlash, h]
  cases h4 : scanStep4 (step3Rest s.data) with
  | none =>
    rw [h4, Option.map_none'] at hre
    have hfr : CommandParts.fromRaw s = CommandParts.new := by
      rw [CommandParts.fromRaw, hre]
    refine ⟨?_, ?_, ?_⟩
    · intro p f hp _
      rw [hfr] at hp
      exact absurd hp (by simp [CommandParts.new])
    · intro p hp _
      rw [hfr] at hp
      exact absurd hp (by simp [CommandParts.new])
    · intro _
      rw [hfr]
      rfl
  | some v =>
    rw [h4, Option.map_some'] at hre
    have hpat : (CommandParts.fromRaw s).pattern
        = strOpt ((step1Rest s.data).takeWhile patChar) := by
      rw [CommandParts.fromRaw, hre]
    have hfl : (CommandParts.fromRaw s).regex_flags
        = (match strOpt ((step1Rest s.data).takeWhile patChar) with
           | some _ =>
             (match flagsOpt s.data with
              | some f => some f
              | none => if hasSlash s.data then some (String.mk []) else none)
           | none => none) := by
      rw [CommandParts.fromRaw, hre]
    refine ⟨?_, ?_, ?_⟩
    · intro p f hp hf
      rw [hpat] at hp
      rw [hfl, hp, hf]
    · intro p hp hf
      rw [hpat] at hp
      rw [hfl, hp, hf, if_pos hslash]
    · intro hp
      rw [hpat] at hp
      rw [hfl, hp]

/-- Witness for C9 amended: `"/ab"` starts with the leading separator
and has a pattern token but no mode suffix, so the leading separator
alone forces `flags_requested = Some ""`. -/
theorem C9_amended_witness : (CommandParts.fromRaw "/ab").regex_flags = some "" :=
  (C9_amended "/ab" (by decide)).2.1 "ab" (by decide) (by decide)

end Broot
